import Mathlib

/-!
Shallow embedding of the Remal_CommonUtils numeric converters and the
formatted-output engine (src/Remal_CommonUtils.cpp), together with proofs
about their behaviour.

Modelling conventions:
* C character buffers are lists of characters whose length is the declared
  capacity; a store at an index beyond the capacity (undefined behaviour in
  the C source) leaves the tracked cells unchanged, since List.set ignores
  out-of-range indices.
* uint32 values are natural numbers, int32 values are integers; theorems
  add explicit range hypotheses where the 32-bit width matters.
* double values are rationals; the C cast (int32_t)x is truncation toward
  zero, Int.tdiv on the numerator and denominator.
* the loops are written with an explicit fuel argument that is always
  sufficient (proved below), so that every definition evaluates by rfl and
  decide on concrete inputs.
-/

namespace RemalCommonUtils

/-- The NUL terminator written by the C string routines. -/
def nulChar : Char := Char.ofNat 0

/-- The 71-character lookup literal used by RML_COMM_utoa and RML_COMM_itoa:
"ZYXWVUTSRQPONMLKJIHGFEDCBA9876543210123456789ABCDEFGHIJKLMNOPQRSTUVWXYZ".
It is indexed at 35 + r for the (possibly negative) remainder r. -/
def digitTable : List Char :=
  "ZYXWVUTSRQPONMLKJIHGFEDCBA9876543210123456789ABCDEFGHIJKLMNOPQRSTUVWXYZ".toList

/-- Sequential buffer stores: write the characters cs at consecutive indices
starting at i.  Stores beyond the capacity are dropped, see the module
conventions. -/
def writeFrom (buf : List Char) (i : ℕ) : List Char → List Char
  | [] => buf
  | c :: cs => writeFrom (buf.set i c) (i + 1) cs

/-- RML_COMM_ReverseString: reverse Str[0 .. Length-1] in place, leaving the
rest of the buffer untouched (functional denotation of the two-pointer swap
loop). -/
def RML_COMM_ReverseString (Str : List Char) (Length : ℕ) : List Char :=
  (Str.take Length).reverse ++ Str.drop Length

/-- Reading the buffer back as a C string: the characters before the first
NUL. -/
def cString (buf : List Char) : List Char :=
  buf.takeWhile (fun c => c ≠ nulChar)

/-- The do-while digit loop of RML_COMM_utoa, with fuel.  Each iteration
stores the character digitTable[35 + (tmp - Value/Base*Base)] and continues
while the quotient is nonzero; digits come out least-significant first. -/
def utoaGo (Base : ℕ) : ℕ → ℕ → List Char
  | 0, _ => []
  | fuel + 1, Value =>
      digitTable.getD (35 + (Value - Value / Base * Base)) nulChar ::
        (if Value / Base = 0 then [] else utoaGo Base fuel (Value / Base))

/-- The digit characters produced by the RML_COMM_utoa loop for a given value
(least-significant first).  Fuel Value + 1 is always sufficient. -/
def utoaLoop (Base Value : ℕ) : List Char :=
  utoaGo Base (Value + 1) Value

/-- Common tail of RML_COMM_utoa and RML_COMM_itoa once the digit characters
ds have been stored from index 0 on: capacity check (error empties the
string), NUL-terminate at ds.length, reverse in place, and return
ptr - ResultBuff.  After the two-pointer swap loop both pointers have moved
to the middle, so the C expression evaluates to (ds.length - 1) / 2, not to
the length. -/
def convFinish (ds : List Char) (ResultBuff : List Char) (ResultBuff_Size : ℕ) :
    Int × List Char :=
  if ResultBuff_Size ≤ ds.length then
    (-1, (writeFrom ResultBuff 0 ds).set 0 nulChar)
  else
    (((ds.length - 1) / 2 : ℕ),
      RML_COMM_ReverseString ((writeFrom ResultBuff 0 ds).set ds.length nulChar)
        ds.length)

/-- RML_COMM_utoa.  Returns the int32 result together with the final buffer
contents. -/
def RML_COMM_utoa (Value : ℕ) (ResultBuff : List Char) (ResultBuff_Size : ℕ)
    (Base : ℕ) : Int × List Char :=
  if Base < 2 ∨ 36 < Base then
    (-1, ResultBuff.set 0 nulChar)
  else
    convFinish (utoaLoop Base Value) ResultBuff ResultBuff_Size

/-- The do-while digit loop of RML_COMM_itoa, with fuel.  Division is the C
signed division (truncation toward zero, Int.tdiv), so the remainder
tmp - Value/Base*Base can be negative and selects a character from the
mirrored half of digitTable. -/
def itoaGo (Base : ℕ) : ℕ → Int → List Char
  | 0, _ => []
  | fuel + 1, Value =>
      digitTable.getD (35 + (Value - Value.tdiv Base * Base)).toNat nulChar ::
        (if Value.tdiv Base = 0 then [] else itoaGo Base fuel (Value.tdiv Base))

/-- The digit characters produced by the RML_COMM_itoa loop (least-significant
first).  Fuel Value.natAbs + 1 is always sufficient. -/
def itoaLoop (Base : ℕ) (Value : Int) : List Char :=
  itoaGo Base (Value.natAbs + 1) Value

/-- The characters stored by RML_COMM_itoa before the in-place reversal:
the digit loop output, followed by '-' exactly when the original value is
negative and the base is 10. -/
def itoaDigits (Base : ℕ) (Value : Int) : List Char :=
  if Value < 0 ∧ Base = 10 then itoaLoop Base Value ++ ['-'] else itoaLoop Base Value

/-- RML_COMM_itoa: same digit loop as utoa but on a signed value with C
signed division; a '-' is appended (before the in-place reversal) exactly
when the original value is negative and the base is 10. -/
def RML_COMM_itoa (Value : Int) (ResultBuff : List Char) (ResultBuff_Size : ℕ)
    (Base : ℕ) : Int × List Char :=
  if Base < 2 ∨ 36 < Base then
    (-1, ResultBuff.set 0 nulChar)
  else
    convFinish (itoaDigits Base Value) ResultBuff ResultBuff_Size

/-- The exact rational value of a C double, kept as a numerator over a
positive denominator.  The operations RML_COMM_ftoa performs on doubles
(truncation, subtracting an integer, negation, multiplying by 10) are exact
in real arithmetic whenever no rounding occurs, and they are modelled here
by the corresponding exact rational operations, which never need
normalization because every operation keeps the denominator. -/
structure QVal where
  num : Int
  den : ℕ
deriving DecidableEq

/-- Truncation toward zero: the semantics of the C cast (int32_t)x applied
to a double (range side conditions are stated at the theorems that need
them). -/
def QVal.trunc (q : QVal) : Int := q.num.tdiv q.den

/-- Subtract an integer from a double value (exact). -/
def QVal.subInt (q : QVal) (k : Int) : QVal := ⟨q.num - k * q.den, q.den⟩

/-- Negate a double value (exact). -/
def QVal.neg (q : QVal) : QVal := ⟨-q.num, q.den⟩

/-- Multiply a double value by 10 (exact in the modelled range). -/
def QVal.mul10 (q : QVal) : QVal := ⟨q.num * 10, q.den⟩

/-- The digit characters of the whole part as RML_COMM_ftoa stores them
(least-significant first): each iteration stores WholePart % 10 + '0'.
Fuel w + 1 is always sufficient. -/
def wholeGo : ℕ → ℕ → List Char
  | 0, _ => []
  | fuel + 1, w =>
      Char.ofNat (w % 10 + 48) ::
        (if w / 10 = 0 then [] else wholeGo fuel (w / 10))

/-- Whole-part digit characters of RML_COMM_ftoa (least-significant
first). -/
def wholeDigits (w : ℕ) : List Char := wholeGo (w + 1) w

/-- The whole-part do-while loop of RML_COMM_ftoa: before each store the
index is checked against the capacity; exhausting the buffer aborts with
error (the caller then empties the string).  On success it returns the
buffer and the next free index. -/
def ftoaWholeGo : ℕ → ℕ → List Char → ℕ → ℕ → Except (List Char) (List Char × ℕ)
  | 0, _, buf, i, _ => .ok (buf, i)
  | fuel + 1, w, buf, i, BuffSize =>
      if i < BuffSize then
        let buf1 := buf.set i (Char.ofNat (w % 10 + 48))
        if w / 10 = 0 then .ok (buf1, i + 1)
        else ftoaWholeGo fuel (w / 10) buf1 (i + 1) BuffSize
      else .error buf

/-- Whole-part loop of RML_COMM_ftoa with sufficient fuel. -/
def ftoaWholeLoop (w : ℕ) (buf : List Char) (i BuffSize : ℕ) :
    Except (List Char) (List Char × ℕ) :=
  ftoaWholeGo (w + 1) w buf i BuffSize

/-- The fractional-digit loop of RML_COMM_ftoa: Afterpoint times, multiply
the remaining fraction by 10, truncate to get the digit, store
digit + '0' (capacity-checked), and subtract the digit.  The stored
character is taken verbatim from the C expression, so a negative digit
yields a character below '0'. -/
def ftoaFracLoop : ℕ → QVal → List Char → ℕ → ℕ → Except (List Char) (List Char × ℕ)
  | 0, _, buf, i, _ => .ok (buf, i)
  | count + 1, Frac, buf, i, BuffSize =>
      let F := Frac.mul10
      let digit : Int := F.trunc
      if i < BuffSize then
        ftoaFracLoop count (F.subInt digit) (buf.set i (Char.ofNat (digit + 48).toNat))
          (i + 1) BuffSize
      else .error buf

/-- The sign step of RML_COMM_ftoa: store '-' after the whole-part digits
and advance, but only when the negative flag is set and the index is still
inside the buffer; otherwise the sign is silently skipped. -/
def ftoaSignStep (NegativeFlag : Bool) (buf : List Char) (i BuffSize : ℕ) :
    List Char × ℕ :=
  if NegativeFlag = true ∧ i < BuffSize then (buf.set i '-', i + 1) else (buf, i)

/-- The terminator step of RML_COMM_ftoa: when even the NUL does not fit,
the whole string is emptied, and either way the index i is returned (not an
error code). -/
def ftoaFinish (buf : List Char) (i BuffSize : ℕ) : Int × List Char :=
  if BuffSize < i + 1 then ((i : ℕ), buf.set 0 nulChar)
  else ((i : ℕ), buf.set i nulChar)

/-- RML_COMM_ftoa translated from the source: split the value at the
truncated whole part, negate both parts when the whole part is negative,
store the whole-part digits (capacity-checked), conditionally store '-',
reverse the prefix written so far, then optionally store '.' and Afterpoint
fractional digits, and finally NUL-terminate - emptying the whole string
when even the terminator does not fit, yet still returning the length. -/
def RML_COMM_ftoa (Value : QVal) (ResultBuff : List Char) (BuffSize : ℕ)
    (Afterpoint : ℕ) : Int × List Char :=
  let WholePart : Int := Value.trunc
  let FractionalPart : QVal := Value.subInt WholePart
  let NegativeFlag : Bool := WholePart < 0
  let Frac : QVal := if NegativeFlag then FractionalPart.neg else FractionalPart
  match ftoaWholeLoop WholePart.natAbs ResultBuff 0 BuffSize with
  | .error _ => (-1, ResultBuff.set 0 nulChar)
  | .ok (buf1, i1) =>
    let st2 := ftoaSignStep NegativeFlag buf1 i1 BuffSize
    let buf3 := RML_COMM_ReverseString st2.1 st2.2
    if 0 < Afterpoint then
      if st2.2 < BuffSize then
        match ftoaFracLoop Afterpoint Frac (buf3.set st2.2 '.') (st2.2 + 1) BuffSize with
        | .error bufE => (-1, bufE.set 0 nulChar)
        | .ok (buf5, i4) => ftoaFinish buf5 i4 BuffSize
      else
        (-1, buf3.set st2.2 nulChar)
    else
      ftoaFinish buf3 st2.2 BuffSize

/-- Reparsing a digit string (digits 0-9, letters A-Z for 10-35) in a given
base, written from the specification of the round-trip property. -/
def digitVal (c : Char) : ℕ :=
  if c.toNat ≤ 57 then c.toNat - 48 else c.toNat - 55

/-- Reparse a most-significant-first digit string in base b. -/
def parseBase (b : ℕ) (s : List Char) : ℕ :=
  s.foldl (fun acc c => acc * b + digitVal c) 0

/-- The heterogeneous variadic arguments of the formatter, tagged with the
C type each va_arg extraction assumes. -/
inductive VArg where
  | argStr (s : List Char)
  | argChar (c : Char)
  | argU32 (n : ℕ)
  | argI32 (n : Int)
  | argDouble (q : QVal)
deriving DecidableEq

/-- Placeholder for va_arg past the end of the list (undefined behaviour in
the C source; never relevant to the theorems below). -/
def noArg : VArg := .argU32 0

/-- The bit pattern read by va_arg(VaList, char*). -/
def VArg.asStr : VArg → List Char
  | .argStr s => s
  | _ => []

/-- The value read by va_arg(VaList, int) for the c specifier. -/
def VArg.asChar : VArg → Char
  | .argChar c => c
  | _ => nulChar

/-- The value read by va_arg(VaList, uint32_t). -/
def VArg.asU32 : VArg → ℕ
  | .argU32 n => n
  | _ => 0

/-- The value read by va_arg(VaList, int32_t). -/
def VArg.asI32 : VArg → Int
  | .argI32 n => n
  | _ => 0

/-- The value read by va_arg(VaList, double). -/
def VArg.asDouble : VArg → QVal
  | .argDouble q => q
  | _ => ⟨0, 1⟩

/-- One iteration of the while loop of RML_COMM_vprintf: the emitted
characters, plus the follow-on state (remaining format string, remaining
argument list, contents of the 20-byte IntStr conversion buffer), or none
when scanning stops.  The branch structure mirrors the switch statements of
the source; conversion results are emitted as the C string now in IntStr. -/
def vprintfStep : List Char → List VArg → List Char →
    List Char × Option (List Char × List VArg × List Char)
  | [], _, _ => ([], none)
  | InChar :: rest, args, intStr =>
    if InChar = '%' then
      match rest with
      | [] => ([], none)
      | spec :: rest2 =>
        if spec = 's' then ((args.headD noArg).asStr, some (rest2, args.tail, intStr))
        else if spec = 'c' then
          ([(args.headD noArg).asChar], some (rest2, args.tail, intStr))
        else if spec = 'u' then
          let r := RML_COMM_utoa (args.headD noArg).asU32 intStr 20 10
          (cString r.2, some (rest2, args.tail, r.2))
        else if spec = 'i' ∨ spec = 'd' then
          let r := RML_COMM_itoa (args.headD noArg).asI32 intStr 20 10
          (cString r.2, some (rest2, args.tail, r.2))
        else if spec = '%' then
          (['%'], some (rest2, args, intStr))
        else if spec = 'X' ∨ spec = 'x' then
          let r := RML_COMM_utoa (args.headD noArg).asU32 intStr 20 16
          (cString r.2, some (rest2, args.tail, r.2))
        else if spec = '.' then
          match rest2 with
          | [] =>
              -- the inner switch sees the terminator, echoes it, and the scan
              -- then walks past the end of the string (undefined behaviour in
              -- the source); the model stops after the echo
              ([nulChar], none)
          | d :: rest3 =>
            if 49 ≤ d.toNat ∧ d.toNat ≤ 54 then
              -- cases '1' to '6': [number] decimal places, skip the digit and
              -- the trailing character (assumed to be f)
              let r := RML_COMM_ftoa (args.headD noArg).asDouble intStr 20 (d.toNat - 48)
              (cString r.2, some (rest3.drop 1, args.tail, r.2))
            else
              -- unknown precision - just print the raw character, no argument
              ([d], some (rest3, args, intStr))
        else if spec = 'f' then
          let r := RML_COMM_ftoa (args.headD noArg).asDouble intStr 20 2
          (cString r.2, some (rest2, args.tail, r.2))
        else
          -- unknown specifier: print % and the character
          (['%', spec], some (rest2, args, intStr))
    else
      ([InChar], some (rest, args, intStr))

/-- The while loop of RML_COMM_vprintf with fuel: run vprintfStep until the
format string is exhausted.  Every iteration consumes at least one format
character, so fuel equal to the format length is always sufficient. -/
def vprintfGo : ℕ → List Char → List VArg → List Char → List Char
  | 0, _, _, _ => []
  | fuel + 1, fmt, args, intStr =>
      match vprintfStep fmt args intStr with
      | (out, none) => out
      | (out, some (fmt2, args2, intStr2)) => out ++ vprintfGo fuel fmt2 args2 intStr2

/-- The format-scanning loop of RML_COMM_vprintf over an initial IntStr
buffer. -/
def vprintfLoop (fmt : List Char) (args : List VArg) (intStr : List Char) :
    List Char :=
  vprintfGo fmt.length fmt args intStr

/-- Process-wide logger state: the Logger_InitDone flag set by a successful
RML_COMM_LoggerInit, and the five LogLevelsEnable entries (all enabled by
default). -/
structure LoggerState where
  Logger_InitDone : Bool
  LogLevelsEnable : List Bool
deriving DecidableEq

/-- The UART configuration structure passed to RML_COMM_LoggerInit. -/
structure GenericUART_Struct where
  RX_Pin : Int
  TX_Pin : Int
  BaudRate : ℕ
deriving DecidableEq

/-- The maximum baudrate accepted by RML_COMM_LoggerInit (native build). -/
def MaxBaudrate : ℕ := 115200

/-- RML_COMM_LoggerInit: reject a zero or too-large baudrate, otherwise
perform the platform setup (a no-op in the native build) and set
Logger_InitDone. -/
def RML_COMM_LoggerInit (UARTComm : GenericUART_Struct) (st : LoggerState) :
    Int × LoggerState :=
  if MaxBaudrate < UARTComm.BaudRate ∨ UARTComm.BaudRate = 0 then (-1, st)
  else (0, { st with Logger_InitDone := true })

/-- RML_COMM_vprintf: if the logger was never initialized, return
immediately with no output; otherwise scan the format string with a fresh
20-byte conversion buffer. -/
def RML_COMM_vprintf (st : LoggerState) (InputStr : List Char)
    (VaList : List VArg) : List Char :=
  if st.Logger_InitDone = false then []
  else vprintfLoop InputStr VaList (List.replicate 20 nulChar)

/-- RML_COMM_printf: guard on Logger_InitDone, then delegate to
RML_COMM_vprintf. -/
def RML_COMM_printf (st : LoggerState) (InputStr : List Char)
    (args : List VArg) : List Char :=
  if st.Logger_InitDone = false then []
  else RML_COMM_vprintf st InputStr args

/-- The LogLevel_Str table. -/
def LogLevel_Str : List (List Char) :=
  ["DEBUG".toList, "INFO".toList, "WARNING".toList, "ERROR".toList, "FATAL".toList]

/-- RML_COMM_LogMsg: guard on Logger_InitDone, filter disabled levels,
then emit the prefix segments, the formatted message body (via the same
scanner as RML_COMM_vprintf), and the trailing newline.  Color strings are
all empty because ENABLE_COLOR_SUPPORT is 0 in the header. -/
def RML_COMM_LogMsg (st : LoggerState) (Src : List Char) (LogLvl : ℕ)
    (Msg : List Char) (args : List VArg) : List Char :=
  if st.Logger_InitDone = false then []
  else if LogLvl ≤ 4 ∧ st.LogLevelsEnable.getD LogLvl true = false then []
  else
    let lvlStr :=
      if LogLvl ≤ 4 then LogLevel_Str.getD LogLvl []
      else "Unknown LogLvl?".toList
    "> [".toList ++ lvlStr ++ "] ".toList ++ Src ++ ": ".toList ++
      RML_COMM_vprintf st Msg args ++ "\r\n".toList

/-! ### Buffer lemmas -/

theorem writeFrom_length (cs : List Char) : ∀ (buf : List Char) (i : ℕ),
    (writeFrom buf i cs).length = buf.length := by
  induction cs with
  | nil => intro buf i; rfl
  | cons c cs ih => intro buf i; rw [writeFrom, ih, List.length_set]

theorem writeFrom_eq (cs : List Char) : ∀ (buf : List Char) (i : ℕ),
    i + cs.length ≤ buf.length →
    writeFrom buf i cs = buf.take i ++ cs ++ buf.drop (i + cs.length) := by
  induction cs with
  | nil =>
      intro buf i h
      rw [writeFrom]
      simp
  | cons c cs ih =>
      intro buf i h
      have hi : i < buf.length := by simp only [List.length_cons] at h; omega
      have h2 : i + 1 + cs.length ≤ (buf.set i c).length := by
        rw [List.length_set]; simp only [List.length_cons] at h; omega
      rw [writeFrom, ih _ _ h2, List.set_eq_take_cons_drop c hi]
      have htl : (buf.take i).length = i := List.length_take_of_le (le_of_lt hi)
      have htake : (buf.take i ++ c :: buf.drop (i + 1)).take (i + 1) =
          buf.take i ++ [c] := by
        rw [show i + 1 = (buf.take i).length + 1 by omega, List.take_append]
        simp
      have hdrop : (buf.take i ++ c :: buf.drop (i + 1)).drop (i + 1 + cs.length) =
          buf.drop (i + (cs.length + 1)) := by
        rw [show i + 1 + cs.length = (buf.take i).length + (cs.length + 1) by omega,
          List.drop_append]
        simp only [List.drop_succ_cons, List.drop_drop]
        congr 1
        omega
      rw [htake, hdrop]
      simp

theorem getD_set_ne (l : List Char) (i j : ℕ) (a d : Char) (h : i ≠ j) :
    (l.set i a).getD j d = l.getD j d := by
  rw [List.getD_eq_getElem?_getD, List.getElem?_set_ne h, ← List.getD_eq_getElem?_getD]

theorem writeFrom_getD_lt (cs : List Char) : ∀ (buf : List Char) (i j : ℕ) (d : Char),
    j < i → (writeFrom buf i cs).getD j d = buf.getD j d := by
  induction cs with
  | nil => intro buf i j d _; rfl
  | cons c cs ih =>
      intro buf i j d hj
      rw [writeFrom, ih _ _ _ _ (by omega), getD_set_ne _ _ _ _ _ (by omega)]

theorem cString_cons_nul (rest : List Char) : cString (nulChar :: rest) = [] := by
  simp [cString, List.takeWhile_cons]

theorem cString_cons (c : Char) (t : List Char) (hc : c ≠ nulChar) :
    cString (c :: t) = c :: cString t := by
  simp [cString, List.takeWhile_cons, hc]

theorem cString_append (xs rest : List Char) (h : ∀ c ∈ xs, c ≠ nulChar) :
    cString (xs ++ nulChar :: rest) = xs := by
  induction xs with
  | nil => simpa using cString_cons_nul rest
  | cons c cs ih =>
      have hc : c ≠ nulChar := h c (by simp)
      rw [List.cons_append, cString_cons c _ hc, ih (fun x hx => h x (by simp [hx]))]

theorem cString_set_zero (l : List Char) (h : 0 < l.length) :
    cString (l.set 0 nulChar) = [] := by
  cases l with
  | nil => simp at h
  | cons a t => simpa using cString_cons_nul t

/-! ### The utoa digit loop -/

theorem sub_div_mul_eq_mod (v b : ℕ) : v - v / b * b = v % b := by
  have h := Nat.div_add_mod v b
  rw [mul_comm] at h
  generalize v / b * b = t at h ⊢
  generalize v % b = r at h ⊢
  omega

theorem utoaGo_congr (b : ℕ) (hb : 2 ≤ b) :
    ∀ f₁ v, v < f₁ → ∀ f₂, v < f₂ → utoaGo b f₁ v = utoaGo b f₂ v := by
  intro f₁
  induction f₁ with
  | zero => intro v hv; omega
  | succ f ih =>
      intro v hv f₂ hv₂
      cases f₂ with
      | zero => omega
      | succ f₂ =>
          simp only [utoaGo]
          congr 1
          by_cases h0 : v / b = 0
          · simp [h0]
          · have hv0 : v ≠ 0 := by rintro rfl; simp at h0
            have hvb : v / b < v := Nat.div_lt_self (by omega) (by omega)
            rw [if_neg h0, if_neg h0]
            exact ih (v / b) (by omega) f₂ (by omega)

theorem utoaLoop_eq (b v : ℕ) (hb : 2 ≤ b) :
    utoaLoop b v =
      digitTable.getD (35 + (v - v / b * b)) nulChar ::
        (if v / b = 0 then [] else utoaLoop b (v / b)) := by
  rw [utoaLoop, utoaGo]
  congr 1
  by_cases h0 : v / b = 0
  · simp [h0]
  · have hv0 : v ≠ 0 := by rintro rfl; simp at h0
    have hvb : v / b < v := Nat.div_lt_self (by omega) (by omega)
    rw [if_neg h0, if_neg h0]
    exact utoaGo_congr b hb v (v / b) (by omega) (v / b + 1) (by omega)

theorem digitTable_ok : ∀ j < 71,
    digitTable.getD j nulChar ≠ nulChar ∧ digitTable.getD j nulChar ≠ '-' := by
  decide

theorem digitVal_table : ∀ r < 36,
    digitVal (digitTable.getD (35 + r) nulChar) = r := by
  decide

theorem utoaLoop_mem (b : ℕ) (hb2 : 2 ≤ b) (hb36 : b ≤ 36) :
    ∀ v, ∀ c ∈ utoaLoop b v, c ≠ nulChar ∧ c ≠ '-' := by
  intro v
  induction v using Nat.strong_induction_on with
  | _ v ih =>
    intro c hc
    rw [utoaLoop_eq b v hb2, sub_div_mul_eq_mod] at hc
    rcases List.mem_cons.mp hc with h | h
    · subst h
      exact digitTable_ok (35 + v % b) (by have := Nat.mod_lt v (show 0 < b by omega); omega)
    · by_cases h0 : v / b = 0
      · rw [if_pos h0] at h
        simp at h
      · rw [if_neg h0] at h
        have hv0 : v ≠ 0 := by rintro rfl; simp at h0
        exact ih (v / b) (Nat.div_lt_self (by omega) (by omega)) c h

theorem utoaLoop_len (b : ℕ) (hb : 2 ≤ b) :
    ∀ k v, v < b ^ (k + 1) → (utoaLoop b v).length ≤ k + 1 := by
  intro k
  induction k with
  | zero =>
      intro v hv
      rw [utoaLoop_eq b v hb]
      have h0 : v / b = 0 := Nat.div_eq_of_lt (by simpa using hv)
      simp [h0]
  | succ k ih =>
      intro v hv
      rw [utoaLoop_eq b v hb]
      by_cases h0 : v / b = 0
      · simp [h0]
      · rw [if_neg h0]
        have hdiv : v / b < b ^ (k + 1) := by
          apply Nat.div_lt_of_lt_mul
          rw [mul_comm, ← pow_succ]
          exact hv
        simpa using ih (v / b) hdiv

theorem parseBase_snoc (b : ℕ) (xs : List Char) (c : Char) :
    parseBase b (xs ++ [c]) = parseBase b xs * b + digitVal c := by
  simp [parseBase, List.foldl_append]

theorem utoaLoop_parse (b : ℕ) (hb2 : 2 ≤ b) (hb36 : b ≤ 36) :
    ∀ v, parseBase b (utoaLoop b v).reverse = v := by
  intro v
  induction v using Nat.strong_induction_on with
  | _ v ih =>
    rw [utoaLoop_eq b v hb2, sub_div_mul_eq_mod]
    have hmod : v % b < 36 := by
      have := Nat.mod_lt v (show 0 < b by omega)
      omega
    by_cases h0 : v / b = 0
    · have hvb : v < b := by
        by_contra hge
        have : 0 < v / b := Nat.div_pos (by omega) (by omega)
        omega
      rw [if_pos h0]
      simp only [List.reverse_cons, List.reverse_nil, List.nil_append]
      have : parseBase b [digitTable.getD (35 + v % b) nulChar] = digitVal
          (digitTable.getD (35 + v % b) nulChar) := by
        simp [parseBase]
      rw [this, digitVal_table (v % b) hmod, Nat.mod_eq_of_lt hvb]
    · rw [if_neg h0]
      have hv0 : v ≠ 0 := by rintro rfl; simp at h0
      have hvb : v / b < v := Nat.div_lt_self (by omega) (by omega)
      rw [List.reverse_cons, parseBase_snoc, ih (v / b) hvb,
        digitVal_table (v % b) hmod, mul_comm]
      exact Nat.div_add_mod v b

/-! ### The shared success and failure shapes of utoa and itoa -/

theorem convFinish_fail (ds buf : List Char) (size : ℕ) (hs : size ≤ ds.length) :
    convFinish ds buf size = (-1, (writeFrom buf 0 ds).set 0 nulChar) := by
  simp [convFinish, hs]

theorem convFinish_ok (ds buf : List Char) (size : ℕ) (hlen : buf.length = size)
    (hs : ds.length < size) :
    convFinish ds buf size =
      ((((ds.length - 1) / 2 : ℕ) : Int),
        ds.reverse ++ nulChar :: buf.drop (ds.length + 1)) := by
  have hle : 0 + ds.length ≤ buf.length := by omega
  have hw : writeFrom buf 0 ds = ds ++ buf.drop ds.length := by
    simpa using writeFrom_eq ds buf 0 hle
  have hLlt : ds.length < buf.length := by omega
  have hdropcons : buf.drop ds.length = buf[ds.length] :: buf.drop (ds.length + 1) :=
    List.drop_eq_getElem_cons hLlt
  unfold convFinish
  simp only [hw]
  rw [if_neg (by omega)]
  have hset : (ds ++ buf.drop ds.length).set ds.length nulChar =
      ds ++ nulChar :: buf.drop (ds.length + 1) := by
    rw [List.set_append, if_neg (by omega), Nat.sub_self, hdropcons]
    rfl
  rw [hset, RML_COMM_ReverseString]
  congr 1
  have htake : (ds ++ nulChar :: buf.drop (ds.length + 1)).take ds.length = ds :=
    List.take_left ds _
  have hdrop : (ds ++ nulChar :: buf.drop (ds.length + 1)).drop ds.length =
      nulChar :: buf.drop (ds.length + 1) :=
    List.drop_left ds _
  rw [htake, hdrop]

theorem utoa_ok (v b : ℕ) (buf : List Char) (size : ℕ)
    (hb2 : 2 ≤ b) (hb36 : b ≤ 36) (hlen : buf.length = size)
    (hs : (utoaLoop b v).length < size) :
    RML_COMM_utoa v buf size b =
      (((((utoaLoop b v).length - 1) / 2 : ℕ) : Int),
        (utoaLoop b v).reverse ++ nulChar :: buf.drop ((utoaLoop b v).length + 1)) := by
  unfold RML_COMM_utoa
  rw [if_neg (by omega)]
  exact convFinish_ok _ _ _ hlen hs

theorem utoa_cString (v b : ℕ) (buf : List Char) (size : ℕ)
    (hb2 : 2 ≤ b) (hb36 : b ≤ 36) (hlen : buf.length = size)
    (hs : (utoaLoop b v).length < size) :
    cString (RML_COMM_utoa v buf size b).2 = (utoaLoop b v).reverse := by
  rw [utoa_ok v b buf size hb2 hb36 hlen hs]
  exact cString_append _ _
    (fun c hc => (utoaLoop_mem b hb2 hb36 v c (List.mem_reverse.mp hc)).1)

/-! ### The itoa digit loop -/

theorem tdiv_natAbs (v : Int) (b : ℕ) : (v.tdiv b).natAbs = v.natAbs / b := by
  rw [Int.natAbs_tdiv]
  rfl

theorem tdiv_rem_natAbs_of_nat (n b : ℕ) :
    (((n : Int)) - (n : Int).tdiv b * b).natAbs = n % b := by
  rw [← Int.ofNat_tdiv]
  have h : ((n : Int)) - ((n / b : ℕ) : Int) * ((b : ℕ) : Int) = ((n % b : ℕ) : Int) := by
    have hh : ((b : ℕ) : Int) * ((n / b : ℕ) : Int) + ((n % b : ℕ) : Int) = (n : Int) := by
      exact_mod_cast Nat.div_add_mod n b
    rw [mul_comm] at hh
    linarith
  rw [h]
  exact Int.natAbs_ofNat _

theorem tdiv_rem_natAbs (v : Int) (b : ℕ) :
    (v - v.tdiv b * b).natAbs = v.natAbs % b := by
  obtain ⟨n, hn⟩ : ∃ n : ℕ, v.natAbs = n := ⟨v.natAbs, rfl⟩
  rcases Int.natAbs_eq v with h | h
  · rw [hn] at h ⊢
    subst h
    exact tdiv_rem_natAbs_of_nat n b
  · rw [hn] at h ⊢
    subst h
    rw [show -(n : Int) - (-(n : Int)).tdiv b * b =
        -((n : Int) - (n : Int).tdiv b * b) by rw [Int.neg_tdiv]; ring]
    rw [Int.natAbs_neg]
    exact tdiv_rem_natAbs_of_nat n b

theorem itoa_tdiv_lt (v : Int) (b : ℕ) (hb : 2 ≤ b) (h0 : v.tdiv b ≠ 0) :
    (v.tdiv b).natAbs < v.natAbs := by
  rw [tdiv_natAbs]
  have hne : v.natAbs / b ≠ 0 := by
    intro hz
    apply h0
    apply Int.natAbs_eq_zero.mp
    rw [tdiv_natAbs, hz]
  have hge : b ≤ v.natAbs := by
    by_contra hlt
    exact hne (Nat.div_eq_of_lt (by omega))
  exact Nat.div_lt_self (by omega) (by omega)

theorem itoaGo_congr (b : ℕ) (hb : 2 ≤ b) :
    ∀ f₁ (v : Int), v.natAbs < f₁ → ∀ f₂, v.natAbs < f₂ →
      itoaGo b f₁ v = itoaGo b f₂ v := by
  intro f₁
  induction f₁ with
  | zero => intro v hv; omega
  | succ f ih =>
      intro v hv f₂ hv₂
      cases f₂ with
      | zero => omega
      | succ f₂ =>
          simp only [itoaGo]
          congr 1
          by_cases h0 : v.tdiv b = 0
          · simp [h0]
          · have hlt := itoa_tdiv_lt v b hb h0
            rw [if_neg h0, if_neg h0]
            exact ih (v.tdiv b) (by omega) f₂ (by omega)

theorem itoaLoop_eq (b : ℕ) (v : Int) (hb : 2 ≤ b) :
    itoaLoop b v =
      digitTable.getD (35 + (v - v.tdiv b * b)).toNat nulChar ::
        (if v.tdiv b = 0 then [] else itoaLoop b (v.tdiv b)) := by
  rw [itoaLoop, itoaGo]
  congr 1
  by_cases h0 : v.tdiv b = 0
  · simp [h0]
  · have hlt := itoa_tdiv_lt v b hb h0
    rw [if_neg h0, if_neg h0]
    exact itoaGo_congr b hb v.natAbs (v.tdiv b) (by omega) ((v.tdiv b).natAbs + 1)
      (by omega)

theorem itoaLoop_mem (b : ℕ) (hb2 : 2 ≤ b) (hb36 : b ≤ 36) :
    ∀ (v : Int), ∀ c ∈ itoaLoop b v, c ≠ nulChar ∧ c ≠ '-' := by
  intro v
  generalize hn : v.natAbs = n
  induction n using Nat.strong_induction_on generalizing v with
  | _ n ih =>
    intro c hc
    rw [itoaLoop_eq b v hb2] at hc
    rcases List.mem_cons.mp hc with h | h
    · subst h
      apply digitTable_ok
      have hrem : (v - v.tdiv b * b).natAbs = v.natAbs % b := tdiv_rem_natAbs v b
      have hmod : v.natAbs % b < b := Nat.mod_lt _ (by omega)
      omega
    · by_cases h0 : v.tdiv b = 0
      · rw [if_pos h0] at h
        simp at h
      · rw [if_neg h0] at h
        have hlt := itoa_tdiv_lt v b hb2 h0
        exact ih (v.tdiv b).natAbs (by omega) (v.tdiv b) rfl c h

theorem itoaLoop_len (b : ℕ) (hb : 2 ≤ b) :
    ∀ k (v : Int), v.natAbs < b ^ (k + 1) → (itoaLoop b v).length ≤ k + 1 := by
  intro k
  induction k with
  | zero =>
      intro v hv
      rw [itoaLoop_eq b v hb]
      have h0 : v.tdiv b = 0 := by
        apply Int.natAbs_eq_zero.mp
        rw [tdiv_natAbs]
        exact Nat.div_eq_of_lt (by simpa using hv)
      simp [h0]
  | succ k ih =>
      intro v hv
      rw [itoaLoop_eq b v hb]
      by_cases h0 : v.tdiv b = 0
      · simp [h0]
      · rw [if_neg h0]
        have hdiv : (v.tdiv b).natAbs < b ^ (k + 1) := by
          rw [tdiv_natAbs]
          apply Nat.div_lt_of_lt_mul
          rw [mul_comm, ← pow_succ]
          exact hv
        simpa using ih (v.tdiv b) hdiv

theorem itoaDigits_mem (b : ℕ) (hb2 : 2 ≤ b) (hb36 : b ≤ 36) (v : Int) :
    ∀ c ∈ itoaDigits b v, c ≠ nulChar := by
  intro c hc
  unfold itoaDigits at hc
  split_ifs at hc with h
  · rcases List.mem_append.mp hc with h1 | h1
    · exact (itoaLoop_mem b hb2 hb36 v c h1).1
    · simp only [List.mem_singleton] at h1
      subst h1
      decide
  · exact (itoaLoop_mem b hb2 hb36 v c hc).1

theorem itoa_ok (v : Int) (b : ℕ) (buf : List Char) (size : ℕ)
    (hb2 : 2 ≤ b) (hb36 : b ≤ 36) (hlen : buf.length = size)
    (hs : (itoaDigits b v).length < size) :
    RML_COMM_itoa v buf size b =
      (((((itoaDigits b v).length - 1) / 2 : ℕ) : Int),
        (itoaDigits b v).reverse ++ nulChar ::
          buf.drop ((itoaDigits b v).length + 1)) := by
  unfold RML_COMM_itoa
  rw [if_neg (by omega)]
  exact convFinish_ok _ _ _ hlen hs

theorem itoa_cString (v : Int) (b : ℕ) (buf : List Char) (size : ℕ)
    (hb2 : 2 ≤ b) (hb36 : b ≤ 36) (hlen : buf.length = size)
    (hs : (itoaDigits b v).length < size) :
    cString (RML_COMM_itoa v buf size b).2 = (itoaDigits b v).reverse := by
  rw [itoa_ok v b buf size hb2 hb36 hlen hs]
  exact cString_append _ _
    (fun c hc => itoaDigits_mem b hb2 hb36 v c (List.mem_reverse.mp hc))

/-! ### Claim theorems for the integer converters -/

/-- C1 (amended): for RML_COMM_utoa and RML_COMM_itoa, whenever the buffer
capacity is smaller than the required output length including the
terminator, the call returns the BufferTooSmall error code -1 and leaves
the buffer holding an empty terminated string.  RML_COMM_ftoa does not
satisfy this contract uniformly, see the counterexample theorem. -/
theorem utoa_itoa_buffer_too_small (vu : ℕ) (vi : Int) (b su si : ℕ)
    (bufu bufi : List Char)
    (hb2 : 2 ≤ b) (hb36 : b ≤ 36)
    (hlu : bufu.length = su) (hsu : 0 < su)
    (hli : bufi.length = si) (hsi : 0 < si)
    (hovu : su < (utoaLoop b vu).length + 1)
    (hovi : si < (itoaDigits b vi).length + 1) :
    ((RML_COMM_utoa vu bufu su b).1 = -1 ∧
      cString (RML_COMM_utoa vu bufu su b).2 = []) ∧
    ((RML_COMM_itoa vi bufi si b).1 = -1 ∧
      cString (RML_COMM_itoa vi bufi si b).2 = []) := by
  constructor
  · unfold RML_COMM_utoa
    rw [if_neg (by omega), convFinish_fail _ _ _ (by omega)]
    exact ⟨rfl, cString_set_zero _ (by rw [writeFrom_length]; omega)⟩
  · unfold RML_COMM_itoa
    rw [if_neg (by omega), convFinish_fail _ _ _ (by omega)]
    exact ⟨rfl, cString_set_zero _ (by rw [writeFrom_length]; omega)⟩

/-- Witness for the C1 amended theorem at value 255 with capacity 3
(unsigned) and value -255 with capacity 4 (signed). -/
theorem utoa_itoa_buffer_too_small_witness :
    ((3 : ℕ) < (utoaLoop 10 255).length + 1 ∧
      (4 : ℕ) < (itoaDigits 10 (-255)).length + 1) ∧
    ((RML_COMM_utoa 255 (List.replicate 3 ' ') 3 10).1 = -1 ∧
      cString (RML_COMM_utoa 255 (List.replicate 3 ' ') 3 10).2 = []) ∧
    ((RML_COMM_itoa (-255) (List.replicate 4 ' ') 4 10).1 = -1 ∧
      cString (RML_COMM_itoa (-255) (List.replicate 4 ' ') 4 10).2 = []) :=
  ⟨by decide,
    utoa_itoa_buffer_too_small 255 (-255) 10 3 4 (List.replicate 3 ' ')
      (List.replicate 4 ' ') (by decide) (by decide) (by decide) (by decide)
      (by decide) (by decide) (by decide) (by decide)⟩

/-- C1 counterexample: RML_COMM_ftoa on value 1.5 with one decimal place
and capacity 3 needs four bytes including the terminator, yet returns 3
(the would-be length) instead of the BufferTooSmall error code -1. -/
theorem ftoa_buffer_too_small_counterexample :
    (RML_COMM_ftoa ⟨3, 2⟩ (List.replicate 3 ' ') 3 1).1 = 3 ∧
    ¬ (RML_COMM_ftoa ⟨3, 2⟩ (List.replicate 3 ' ') 3 1).1 = -1 := by
  decide

/-- C2 (code bug): the stored strings are correct, but on success both
converters return the final offset of the two-pointer reversal,
(length - 1) / 2, not the emitted length: converting 0 stores the string 0
but returns 0 instead of 1, and converting -255 in base 10 stores -255 but
returns 1 instead of 4.  This contradicts the header documentation, which
promises the length of the resulting string. -/
theorem utoa_itoa_return_value_bug :
    cString (RML_COMM_utoa 0 (List.replicate 20 ' ') 20 10).2 = ['0'] ∧
    (RML_COMM_utoa 0 (List.replicate 20 ' ') 20 10).1 = 0 ∧
    cString (RML_COMM_itoa (-255) (List.replicate 20 ' ') 20 10).2 =
      ['-', '2', '5', '5'] ∧
    (RML_COMM_itoa (-255) (List.replicate 20 ' ') 20 10).1 = 1 := by
  decide

/-- C3: for every base in 2..36 and every representable unsigned 32-bit
value, converting with RML_COMM_utoa into a sufficiently large buffer (33
bytes covers every representable value in every base) and reparsing the
resulting digit string in the same base reproduces the original value. -/
theorem utoa_roundtrip (v b : ℕ) (buf : List Char)
    (hv : v < 2 ^ 32) (hb2 : 2 ≤ b) (hb36 : b ≤ 36) (hbuf : 33 ≤ buf.length) :
    parseBase b (cString (RML_COMM_utoa v buf buf.length b).2) = v := by
  have hlen : (utoaLoop b v).length ≤ 32 := by
    apply utoaLoop_len b hb2 31 v
    calc v < 2 ^ 32 := hv
      _ ≤ b ^ 32 := Nat.pow_le_pow_left hb2 32
  rw [utoa_cString v b buf buf.length hb2 hb36 rfl (by omega)]
  exact utoaLoop_parse b hb2 hb36 v

/-- Witness for the C3 round-trip theorem at value 3735928559 in base 16. -/
theorem utoa_roundtrip_witness :
    ((3735928559 : ℕ) < 2 ^ 32 ∧ 33 ≤ (List.replicate 33 ' ').length) ∧
    parseBase 16 (cString (RML_COMM_utoa 3735928559 (List.replicate 33 ' ')
      (List.replicate 33 ' ').length 16).2) = 3735928559 :=
  ⟨by decide,
    utoa_roundtrip 3735928559 16 (List.replicate 33 ' ') (by decide) (by decide)
      (by decide) (by decide)⟩

/-- C4: for every base outside 2..36 and every input value, RML_COMM_utoa
and RML_COMM_itoa return the InvalidBase error code -1 and write an empty
terminated string (a single NUL at index 0), writing nothing else. -/
theorem utoa_itoa_invalid_base (vu : ℕ) (vi : Int) (b szu szi : ℕ)
    (bufu bufi : List Char) (hb : b < 2 ∨ 36 < b) :
    RML_COMM_utoa vu bufu szu b = (-1, bufu.set 0 nulChar) ∧
    RML_COMM_itoa vi bufi szi b = (-1, bufi.set 0 nulChar) := by
  constructor
  · unfold RML_COMM_utoa
    rw [if_pos hb]
  · unfold RML_COMM_itoa
    rw [if_pos hb]

/-- Witness for the C4 theorem at base 37. -/
theorem utoa_itoa_invalid_base_witness :
    ((37 : ℕ) < 2 ∨ 36 < (37 : ℕ)) ∧
    RML_COMM_utoa 5 (List.replicate 3 'a') 3 37 =
      (-1, (List.replicate 3 'a').set 0 nulChar) ∧
    RML_COMM_itoa (-5) (List.replicate 3 'a') 3 37 =
      (-1, (List.replicate 3 'a').set 0 nulChar) :=
  ⟨by decide,
    utoa_itoa_invalid_base 5 (-5) 37 3 3 (List.replicate 3 'a')
      (List.replicate 3 'a') (by decide)⟩

/-- C8: RML_COMM_itoa prepends a '-' sign exactly when the value is
negative and the base is 10; a negative value in a non-10 base gets no
sign prefix.  In particular -255 in base 10 is stored as -255 and 255 in
base 16 is stored as FF. -/
theorem itoa_sign_policy :
    (∀ (v : Int) (b size : ℕ) (buf : List Char),
      -(2 ^ 31) ≤ v → v < 2 ^ 31 → 2 ≤ b → b ≤ 36 →
      buf.length = size → 34 ≤ size →
      ('-' ∈ cString (RML_COMM_itoa v buf size b).2 ↔ v < 0 ∧ b = 10)) ∧
    cString (RML_COMM_itoa (-255) (List.replicate 34 ' ') 34 10).2 =
      ['-', '2', '5', '5'] ∧
    cString (RML_COMM_itoa 255 (List.replicate 34 ' ') 34 16).2 = ['F', 'F'] := by
  refine ⟨?_, by decide, by decide⟩
  intro v b size buf h1 h2 hb2 hb36 hlen hsize
  have hpow : (2 : Int) ^ 31 = 2147483648 := by norm_num
  rw [hpow] at h1 h2
  have hvn : v.natAbs < 2 ^ 32 := by
    have : (2 : ℕ) ^ 32 = 4294967296 := by norm_num
    omega
  have hloop : (itoaLoop b v).length ≤ 32 := by
    apply itoaLoop_len b hb2 31 v
    calc v.natAbs < 2 ^ 32 := hvn
      _ ≤ b ^ 32 := Nat.pow_le_pow_left hb2 32
  have hds : (itoaDigits b v).length < size := by
    unfold itoaDigits
    split_ifs with h
    · simp only [List.length_append, List.length_singleton]
      omega
    · omega
  rw [itoa_cString v b buf size hb2 hb36 hlen hds, List.mem_reverse]
  unfold itoaDigits
  split_ifs with h
  · simp [h]
  · constructor
    · intro hc
      exact absurd rfl (itoaLoop_mem b hb2 hb36 v '-' hc).2
    · intro hcond
      exact absurd hcond h

/-- Witness for the C8 theorem at value -255, base 10, capacity 34. -/
theorem itoa_sign_policy_witness :
    (-(2 ^ 31) ≤ (-255 : Int) ∧ (-255 : Int) < 2 ^ 31 ∧
      (List.replicate 34 ' ').length = 34) ∧
    ('-' ∈ cString (RML_COMM_itoa (-255) (List.replicate 34 ' ') 34 10).2 ↔
      (-255 : Int) < 0 ∧ (10 : ℕ) = 10) :=
  ⟨by decide,
    itoa_sign_policy.1 (-255) 10 34 (List.replicate 34 ' ') (by decide) (by decide)
      (by decide) (by decide) (by decide) (by decide)⟩

/-! ### The ftoa loops -/

theorem wholeGo_congr : ∀ f₁ w, w < f₁ → ∀ f₂, w < f₂ → wholeGo f₁ w = wholeGo f₂ w := by
  intro f₁
  induction f₁ with
  | zero => intro w hw; omega
  | succ f ih =>
      intro w hw f₂ hw₂
      cases f₂ with
      | zero => omega
      | succ f₂ =>
          simp only [wholeGo]
          congr 1
          by_cases h0 : w / 10 = 0
          · simp [h0]
          · have hw0 : w ≠ 0 := by rintro rfl; simp at h0
            have hwlt : w / 10 < w := Nat.div_lt_self (by omega) (by omega)
            rw [if_neg h0, if_neg h0]
            exact ih (w / 10) (by omega) f₂ (by omega)

theorem wholeDigits_eq (w : ℕ) :
    wholeDigits w = Char.ofNat (w % 10 + 48) ::
      (if w / 10 = 0 then [] else wholeDigits (w / 10)) := by
  rw [wholeDigits, wholeGo]
  congr 1
  by_cases h0 : w / 10 = 0
  · simp [h0]
  · have hw0 : w ≠ 0 := by rintro rfl; simp at h0
    have hwlt : w / 10 < w := Nat.div_lt_self (by omega) (by omega)
    rw [if_neg h0, if_neg h0]
    exact wholeGo_congr w (w / 10) (by omega) (w / 10 + 1) (by omega)

theorem digitChar10_ok : ∀ d < 10,
    Char.ofNat (d + 48) ≠ nulChar ∧ Char.ofNat (d + 48) ≠ '-' := by
  decide

theorem wholeDigits_mem : ∀ w, ∀ c ∈ wholeDigits w, c ≠ nulChar ∧ c ≠ '-' := by
  intro w
  induction w using Nat.strong_induction_on with
  | _ w ih =>
    intro c hc
    rw [wholeDigits_eq] at hc
    rcases List.mem_cons.mp hc with h | h
    · subst h
      exact digitChar10_ok (w % 10) (Nat.mod_lt _ (by omega))
    · by_cases h0 : w / 10 = 0
      · rw [if_pos h0] at h
        simp at h
      · rw [if_neg h0] at h
        have hw0 : w ≠ 0 := by rintro rfl; simp at h0
        exact ih (w / 10) (Nat.div_lt_self (by omega) (by omega)) c h

theorem wholeDigits_length_pos (w : ℕ) : 0 < (wholeDigits w).length := by
  rw [wholeDigits_eq]
  simp

theorem ftoaWholeGo_ok : ∀ (fuel w : ℕ), w < fuel → ∀ (buf : List Char) (i B : ℕ),
    i + (wholeDigits w).length ≤ B →
    ftoaWholeGo fuel w buf i B =
      .ok (writeFrom buf i (wholeDigits w), i + (wholeDigits w).length) := by
  intro fuel
  induction fuel with
  | zero => intro w hw; omega
  | succ f ih =>
      intro w hw buf i B hroom
      have hpos : 0 < (wholeDigits w).length := wholeDigits_length_pos w
      have hiB : i < B := by omega
      by_cases h0 : w / 10 = 0
      · rw [wholeDigits_eq, if_pos h0] at hroom ⊢
        simp only [ftoaWholeGo]
        rw [if_pos hiB, if_pos h0]
        simp [writeFrom]
      · have hw0 : w ≠ 0 := by rintro rfl; simp at h0
        have hwlt : w / 10 < w := Nat.div_lt_self (by omega) (by omega)
        rw [wholeDigits_eq, if_neg h0] at hroom ⊢
        simp only [List.length_cons] at hroom
        simp only [ftoaWholeGo]
        rw [if_pos hiB, if_neg h0,
          ih (w / 10) (by omega) (buf.set i (Char.ofNat (w % 10 + 48))) (i + 1) B
            (by omega)]
        simp only [writeFrom, List.length_cons]
        congr 2
        omega

theorem ftoaWholeLoop_ok (w : ℕ) (buf : List Char) (i B : ℕ)
    (hroom : i + (wholeDigits w).length ≤ B) :
    ftoaWholeLoop w buf i B =
      .ok (writeFrom buf i (wholeDigits w), i + (wholeDigits w).length) :=
  ftoaWholeGo_ok (w + 1) w (by omega) buf i B hroom

theorem ftoaFracLoop_ok : ∀ (count : ℕ) (q : QVal) (buf : List Char) (i B : ℕ),
    i + count ≤ B →
    ∃ ws : List Char, ws.length = count ∧
      ftoaFracLoop count q buf i B = .ok (writeFrom buf i ws, i + count) := by
  intro count
  induction count with
  | zero =>
      intro q buf i B h
      exact ⟨[], rfl, by simp [ftoaFracLoop, writeFrom]⟩
  | succ k ih =>
      intro q buf i B h
      obtain ⟨ws, hl, he⟩ := ih (q.mul10.subInt q.mul10.trunc)
        (buf.set i (Char.ofNat (q.mul10.trunc + 48).toNat)) (i + 1) B (by omega)
      refine ⟨Char.ofNat (q.mul10.trunc + 48).toNat :: ws, by simp [hl], ?_⟩
      simp only [ftoaFracLoop]
      rw [if_pos (by omega), he]
      simp only [writeFrom]
      congr 2
      omega

/-! ### Claim theorems for ftoa -/

/-- C5 (code bug): with Afterpoint 0, RML_COMM_ftoa does not default to two
decimal places: converting -3.5 with Afterpoint 0 stores just the whole
part -3 and returns 2, not -3.50 as the header documentation promises. -/
theorem ftoa_zero_afterpoint_bug :
    cString (RML_COMM_ftoa ⟨-7, 2⟩ (List.replicate 20 ' ') 20 0).2 = ['-', '3'] ∧
    (RML_COMM_ftoa ⟨-7, 2⟩ (List.replicate 20 ' ') 20 0).1 = 2 ∧
    cString (RML_COMM_ftoa ⟨-7, 2⟩ (List.replicate 20 ' ') 20 0).2 ≠
      ['-', '3', '.', '5', '0'] := by
  decide

/-- C6 counterexample: -0.5 is a negative input, yet RML_COMM_ftoa renders
it without a leading minus sign, because the sign flag is derived from the
truncated whole part (which is 0): the stored string for one decimal place
is 0.+ (the fractional digit is computed from the still-negative fraction
and lands below the character 0). -/
theorem ftoa_small_negative_no_sign :
    cString (RML_COMM_ftoa ⟨-1, 2⟩ (List.replicate 20 ' ') 20 1).2 =
      ['0', '.', '+'] ∧
    '-' ∉ (RML_COMM_ftoa ⟨-1, 2⟩ (List.replicate 20 ' ') 20 1).2 := by
  decide

theorem ftoaSignStep_store (buf : List Char) (i B : ℕ) (h : i < B) :
    ftoaSignStep true buf i B = (buf.set i '-', i + 1) := by
  unfold ftoaSignStep
  rw [if_pos ⟨rfl, h⟩]

theorem ftoaSignStep_skip (flag : Bool) (buf : List Char) (i B : ℕ)
    (h : ¬ (flag = true ∧ i < B)) :
    ftoaSignStep flag buf i B = (buf, i) := by
  unfold ftoaSignStep
  rw [if_neg h]

theorem ftoaFinish_fit (buf : List Char) (i B : ℕ) (h : ¬ B < i + 1) :
    ftoaFinish buf i B = (((i : ℕ) : Int), buf.set i nulChar) := by
  unfold ftoaFinish
  rw [if_neg h]

theorem ftoaFinish_nofit (buf : List Char) (i B : ℕ) (h : B < i + 1) :
    ftoaFinish buf i B = (((i : ℕ) : Int), buf.set 0 nulChar) := by
  unfold ftoaFinish
  rw [if_pos h]

theorem set_after_append (ds D : List Char) (c : Char) (hD : D ≠ []) :
    (ds ++ D).set ds.length c = ds ++ c :: D.tail := by
  rw [List.set_append, if_neg (by omega), Nat.sub_self]
  cases D with
  | nil => simp at hD
  | cons d t => rfl

theorem reverse_prefix_append (ds D : List Char) (c : Char) :
    RML_COMM_ReverseString (ds ++ c :: D) (ds.length + 1) = c :: ds.reverse ++ D := by
  rw [RML_COMM_ReverseString, List.take_append 1, List.drop_append 1]
  simp

/-- C6 (amended): RML_COMM_ftoa derives the sign from the truncated whole
part: for every input whose truncated whole part is negative (all values at
or below -1) it negates both parts and prepends '-', so the stored string
leads with a minus sign whenever the buffer has room for the digits, the
sign, the decimal point and the terminator.  Negative values strictly
between -1 and 0 are excluded: the counterexample shows they get no
sign. -/
theorem ftoa_negative_leading_sign (v : QVal) (buf : List Char) (B AP : ℕ)
    (hneg : v.trunc < 0) (hlen : buf.length = B)
    (hroom : (wholeDigits v.trunc.natAbs).length + AP + 3 ≤ B) :
    0 ≤ (RML_COMM_ftoa v buf B AP).1 ∧
    (RML_COMM_ftoa v buf B AP).2.getD 0 nulChar = '-' := by
  obtain ⟨ds, hds⟩ : ∃ ds, wholeDigits v.trunc.natAbs = ds := ⟨_, rfl⟩
  rw [hds] at hroom
  have hndpos : 0 < ds.length := hds ▸ wholeDigits_length_pos v.trunc.natAbs
  have hdrop : buf.drop ds.length ≠ [] := by
    apply List.length_pos.mp
    rw [List.length_drop]
    omega
  have hwl : ftoaWholeLoop v.trunc.natAbs buf 0 B =
      .ok (ds ++ buf.drop ds.length, ds.length) := by
    rw [ftoaWholeLoop_ok v.trunc.natAbs buf 0 B (by rw [hds]; omega), hds]
    rw [writeFrom_eq ds buf 0 (by omega)]
    simp
  have hset : (ds ++ buf.drop ds.length).set ds.length '-' =
      ds ++ '-' :: buf.drop (ds.length + 1) := by
    rw [set_after_append ds _ '-' hdrop, List.tail_drop]
  simp only [RML_COMM_ftoa, hwl, decide_eq_true hneg, if_true]
  rw [ftoaSignStep_store _ _ _ (by omega)]
  dsimp only
  rw [hset, reverse_prefix_append]
  by_cases hap : 0 < AP
  · rw [if_pos hap, if_pos (show ds.length + 1 < B by omega)]
    obtain ⟨ws, hwsl, hfe⟩ := ftoaFracLoop_ok AP ((v.subInt v.trunc).neg)
      ((('-' :: ds.reverse) ++ buf.drop (ds.length + 1)).set (ds.length + 1) '.')
      (ds.length + 1 + 1) B (by omega)
    rw [hfe]
    dsimp only
    rw [ftoaFinish_fit _ _ _ (by omega)]
    constructor
    · exact Int.natCast_nonneg _
    · rw [getD_set_ne _ _ _ _ _ (by omega),
        writeFrom_getD_lt ws _ _ 0 _ (by omega),
        getD_set_ne _ _ _ _ _ (by omega)]
      simp
  · rw [if_neg hap, ftoaFinish_fit _ _ _ (by omega)]
    constructor
    · exact Int.natCast_nonneg _
    · rw [getD_set_ne _ _ _ _ _ (by omega)]
      simp

/-- Witness for the C6 amended theorem at value -3.5 with two decimal
places in a 20-byte buffer. -/
theorem ftoa_negative_leading_sign_witness :
    ((QVal.mk (-7) 2).trunc < 0 ∧
      (wholeDigits (QVal.mk (-7) 2).trunc.natAbs).length + 2 + 3 ≤ 20) ∧
    0 ≤ (RML_COMM_ftoa ⟨-7, 2⟩ (List.replicate 20 ' ') 20 2).1 ∧
    (RML_COMM_ftoa ⟨-7, 2⟩ (List.replicate 20 ' ') 20 2).2.getD 0 nulChar = '-' :=
  ⟨by decide,
    ftoa_negative_leading_sign ⟨-7, 2⟩ (List.replicate 20 ' ') 20 2 (by decide)
      (by decide) (by decide)⟩

/-- C10: when the whole-part digits of a negative value exactly fill the
buffer, the '-' sign is silently skipped rather than reported: with
Afterpoint 0 the call returns BuffSize (success, not -1) and no minus sign
is stored anywhere in the buffer. -/
theorem ftoa_sign_silently_skipped (v : QVal) (buf : List Char) (B : ℕ)
    (hneg : v.trunc < 0) (hlen : buf.length = B)
    (hfill : (wholeDigits v.trunc.natAbs).length = B) :
    (RML_COMM_ftoa v buf B 0).1 = (B : Int) ∧
    '-' ∉ (RML_COMM_ftoa v buf B 0).2 := by
  obtain ⟨ds, hds⟩ : ∃ ds, wholeDigits v.trunc.natAbs = ds := ⟨_, rfl⟩
  rw [hds] at hfill
  have hndpos : 0 < ds.length := hds ▸ wholeDigits_length_pos v.trunc.natAbs
  have hwl : ftoaWholeLoop v.trunc.natAbs buf 0 B = .ok (ds, ds.length) := by
    rw [ftoaWholeLoop_ok v.trunc.natAbs buf 0 B (by rw [hds]; omega), hds]
    rw [writeFrom_eq ds buf 0 (by omega)]
    have hd : buf.drop (0 + ds.length) = [] := by
      rw [show (0 : ℕ) + ds.length = buf.length by omega, List.drop_length]
    rw [hd]
    simp
  simp only [RML_COMM_ftoa, hwl, decide_eq_true hneg]
  rw [ftoaSignStep_skip _ _ _ _ (by omega)]
  dsimp only
  have hrev : RML_COMM_ReverseString ds ds.length = ds.reverse := by
    rw [RML_COMM_ReverseString, List.take_length, List.drop_length]
    simp
  rw [hrev]
  rw [if_neg (by omega), ftoaFinish_nofit _ _ _ (by omega)]
  refine ⟨by simp [hfill], ?_⟩
  intro hmem
  cases hrevs : ds.reverse with
  | nil => simp [hrevs] at hmem
  | cons c t =>
      rw [hrevs] at hmem
      simp only [List.set] at hmem
      rcases List.mem_cons.mp hmem with h | h
      · exact absurd h.symm (by decide)
      · have hmt : '-' ∈ ds := by
          rw [← List.mem_reverse, hrevs]
          exact List.mem_cons_of_mem c h
        exact absurd rfl (wholeDigits_mem v.trunc.natAbs '-' (hds ▸ hmt)).2

/-- Witness for the C10 theorem at value -12 with a 2-byte buffer. -/
theorem ftoa_sign_silently_skipped_witness :
    ((QVal.mk (-12) 1).trunc < 0 ∧
      (wholeDigits (QVal.mk (-12) 1).trunc.natAbs).length = 2) ∧
    (RML_COMM_ftoa ⟨-12, 1⟩ (List.replicate 2 ' ') 2 0).1 = (2 : Int) ∧
    '-' ∉ (RML_COMM_ftoa ⟨-12, 1⟩ (List.replicate 2 ' ') 2 0).2 :=
  ⟨by decide,
    ftoa_sign_silently_skipped ⟨-12, 1⟩ (List.replicate 2 ' ') 2 (by decide)
      (by decide) (by decide)⟩

/-! ### The vprintf scanner -/

set_option maxHeartbeats 1000000 in
theorem vprintfStep_progress :
    ∀ (fmt : List Char) (args : List VArg) (istr out fmt2 : List Char)
      (a2 : List VArg) (i2 : List Char),
      vprintfStep fmt args istr = (out, some (fmt2, a2, i2)) →
      fmt2.length < fmt.length := by
  intro fmt args istr out fmt2 a2 i2 h
  cases fmt with
  | nil => simp [vprintfStep] at h
  | cons c rest =>
    cases rest with
    | nil =>
        simp only [vprintfStep] at h
        split_ifs at h <;> (try simp at h) <;>
              (try (replace h := h.2.1; subst h)) <;>
              (simp only [List.length_cons, List.length_drop, List.length_tail, List.length_nil]; omega)
    | cons spec rest2 =>
        cases rest2 with
        | nil =>
            simp only [vprintfStep] at h
            split_ifs at h <;> (try simp at h) <;>
              (try (replace h := h.2.1; subst h)) <;>
              (simp only [List.length_cons, List.length_drop, List.length_tail, List.length_nil]; omega)
        | cons d rest3 =>
            simp only [vprintfStep] at h
            split_ifs at h <;> (try simp at h) <;>
              (try (replace h := h.2.1; subst h)) <;>
              (simp only [List.length_cons, List.length_drop, List.length_tail, List.length_nil]; omega)

theorem vprintfGo_congr :
    ∀ f₁ (fmt : List Char) (args : List VArg) (istr : List Char),
      fmt.length ≤ f₁ → ∀ f₂, fmt.length ≤ f₂ →
      vprintfGo f₁ fmt args istr = vprintfGo f₂ fmt args istr := by
  intro f₁
  induction f₁ with
  | zero =>
      intro fmt args istr h f₂ h₂
      have hnil : fmt = [] := List.eq_nil_of_length_eq_zero (by omega)
      subst hnil
      have hstep : vprintfStep [] args istr = (([] : List Char), none) := rfl
      cases f₂ with
      | zero => rfl
      | succ f₂ => simp [vprintfGo, hstep]
  | succ f ih =>
      intro fmt args istr h f₂ h₂
      cases f₂ with
      | zero =>
          have hnil : fmt = [] := List.eq_nil_of_length_eq_zero (by omega)
          subst hnil
          have hstep : vprintfStep [] args istr = (([] : List Char), none) := rfl
          simp [vprintfGo, hstep]
      | succ f₂ =>
          cases hstep : vprintfStep fmt args istr with
          | mk out cont =>
            cases cont with
            | none => simp [vprintfGo, hstep]
            | some s =>
                obtain ⟨fmt2, a2, i2⟩ := s
                have hlt := vprintfStep_progress fmt args istr out fmt2 a2 i2 hstep
                simp only [vprintfGo, hstep]
                congr 1
                exact ih fmt2 a2 i2 (by omega) f₂ (by omega)

theorem vprintfLoop_precision_fallback (rest : List Char) (args : List VArg)
    (istr : List Char) :
    vprintfLoop ('%' :: '.' :: '7' :: rest) args istr =
      '7' :: vprintfLoop rest args istr := by
  have hstep : vprintfStep ('%' :: '.' :: '7' :: rest) args istr =
      (['7'], some (rest, args, istr)) := rfl
  simp only [vprintfLoop, List.length_cons]
  rw [show rest.length + 1 + 1 + 1 = rest.length + 2 + 1 from rfl]
  simp only [vprintfGo, hstep, List.singleton_append]
  congr 1
  exact vprintfGo_congr (rest.length + 2) rest args istr (by omega) rest.length
    (by omega)

/-! ### Claim theorems for the formatter front end -/

/-- C7 (amended): a precision digit outside 1..6 after the percent-dot
prefix makes RML_COMM_vprintf fall back to echoing just that digit - the
percent sign and the dot are consumed without being printed, which differs
from the claimed echo of both characters - while no floating-point
argument is consumed and scanning continues right after the digit, so
subsequent specifiers consume the argument sequence in order without
desynchronization: the rest of the format string is processed against the
unchanged argument list (the trailing f is then emitted as a literal by
that continuation). -/
theorem vprintf_precision_seven_echo (lvls : List Bool) (rest : List Char)
    (args : List VArg) :
    RML_COMM_vprintf ⟨true, lvls⟩ ('%' :: '.' :: '7' :: rest) args =
      '7' :: vprintfLoop rest args (List.replicate 20 nulChar) := by
  unfold RML_COMM_vprintf
  rw [if_neg (by simp)]
  exact vprintfLoop_precision_fallback rest args _

/-- C7 counterexample: formatting the string percent-dot-7-f echoes only 7
(and then the literal f): the dot is never emitted through the sink, so
the claimed literal echo of the characters dot and 7 does not happen. -/
theorem vprintf_precision_seven_counterexample :
    RML_COMM_vprintf ⟨true, [true, true, true, true, true]⟩ "%.7f".toList
        [VArg.argDouble ⟨5, 2⟩] = ['7', 'f'] ∧
    '.' ∉ RML_COMM_vprintf ⟨true, [true, true, true, true, true]⟩ "%.7f".toList
        [VArg.argDouble ⟨5, 2⟩] := by
  decide

/-- C9: before RML_COMM_LoggerInit has completed successfully (while the
Logger_InitDone flag is still false), RML_COMM_printf, RML_COMM_vprintf and
RML_COMM_LogMsg all return immediately and emit no characters through the
sink, for every format string and argument list. -/
theorem no_output_before_init (st : LoggerState)
    (h : st.Logger_InitDone = false) :
    (∀ fmt args, RML_COMM_printf st fmt args = []) ∧
    (∀ fmt args, RML_COMM_vprintf st fmt args = []) ∧
    (∀ src lvl msg args, RML_COMM_LogMsg st src lvl msg args = []) := by
  refine ⟨fun fmt args => ?_, fun fmt args => ?_, fun src lvl msg args => ?_⟩ <;>
    simp [RML_COMM_printf, RML_COMM_vprintf, RML_COMM_LogMsg, h]

/-- Witness for the C9 theorem on an uninitialized logger state. -/
theorem no_output_before_init_witness :
    ((LoggerState.mk false [true, true, true, true, true]).Logger_InitDone
      = false) ∧
    RML_COMM_printf (LoggerState.mk false [true, true, true, true, true])
      "x %u".toList [VArg.argU32 7] = [] :=
  ⟨rfl, (no_output_before_init (LoggerState.mk false
    [true, true, true, true, true]) rfl).1 ("x %u".toList) [VArg.argU32 7]⟩

end RemalCommonUtils
